import Mathlib

/-
Verification development for the Tatkal60 round-settlement engine
(contract EscrowGame: rounds, pooled stakes, resolution, fees, claims).

The contract is shallowly embedded: uint256 / uint64 values are Nat
(Solidity ^0.8 checked arithmetic reverts on overflow, and all amounts in
play are bounded by MAX_BET, so unbounded Nat agrees with every
non-reverting execution), int64 prices are Int, addresses are Nat with 0 as
the zero address, and every state-mutating entry point is a function from
the pre-state and its arguments to `Except Err State`.  An `Except.error`
result models a revert: the caller's state is unchanged.  The oracle
(`IOracleAdapter.getPriceWithFreshness`) is modelled by an `Option Int`
argument: `none` is an oracle revert (no fresh price), `some p` is the
price it returns.  Value transfers (fee to the fee sink, payout to the
claimant) are modelled on their success path; a failed transfer reverts
the whole operation, i.e. no state at all, which the `Except` embedding
already captures.  Access-control (`onlyOwner`) is modelled by an explicit
caller argument checked against the stored owner.
-/

set_option maxHeartbeats 1000000

namespace EscrowGame

/-- Addresses are modelled as naturals; `0` plays the role of `address(0)`. -/
abbrev Addr := Nat

/-- `MAX_BET = 1000 ether` (in wei). -/
def MAX_BET : Nat := 1000 * 10 ^ 18

/-- Basis-point denominator for the fee computation. -/
def BASIS_POINTS : Nat := 10000

/-- Fixed total round length in seconds. -/
def ROUND_SECONDS : Nat := 60

/-- The lock happens this many seconds before the resolve time. -/
def LOCK_GAP_SECONDS : Nat := 10

/-- The `Round` struct of the contract.  `outcome` uses the source encoding
`0 = NONE, 1 = UP, 2 = DOWN, 3 = FLAT`. -/
structure Round where
  id : Nat
  market : Nat
  startTs : Nat
  lockTs : Nat
  resolveTs : Nat
  refPrice : Int
  settlePrice : Int
  upPool : Nat
  downPool : Nat
  resolved : Bool
  feePaid : Bool
  outcome : Nat
  deriving Repr, DecidableEq

/-- The zero-initialised `Round`, i.e. what Solidity’s `rounds` mapping
returns for a key that was never written. -/
def defaultRound : Round :=
  { id := 0
    market := 0
    startTs := 0
    lockTs := 0
    resolveTs := 0
    refPrice := 0
    settlePrice := 0
    upPool := 0
    downPool := 0
    resolved := false
    feePaid := false
    outcome := 0 }

/-- Contract storage.  `feeLog` records the `FeeTaken` transfers made by
`resolve` (roundId, amount), newest first; the source emits an event and
sends the amount to `feeSink`. -/
structure State where
  rounds : Nat → Round
  upStakes : Nat → Addr → Nat
  downStakes : Nat → Addr → Nat
  nextRoundId : Nat
  owner : Addr
  feeSink : Addr
  feeBps : Nat
  feeLog : List (Nat × Nat)

/-- Revert reasons of the entry points, one per `require` in the source. -/
inductive Err where
  | NotOwner
  | RoundDoesNotExist
  | AlreadyResolved
  | InvalidMarket
  | StartInPast
  | LockNotAfterStart
  | ResolveNotAfterLock
  | ResolveNotFuture
  | NotStartPlus60
  | LockNotResolveMinus10
  | NotStarted
  | BettingClosed
  | ZeroBet
  | BetTooHigh
  | StalePrice
  | InvalidRefPrice
  | TooEarly
  | InvalidSettlePrice
  | NotResolved
  | NothingToClaim
  | NoWinners
  | InvalidFeeSink
  | FeeTooHigh
  deriving Repr, DecidableEq

/-- Pointwise map update (Solidity mapping write). -/
def upd {α : Type} (f : Nat → α) (k : Nat) (v : α) : Nat → α :=
  fun j => if j = k then v else f j

/-- State right after the constructor `EscrowGame(_oracle, _feeSink, _feeBps)`
(the constructor also requires `_feeSink != 0` and `_feeBps <= 500`; those
are hypotheses of reachability below). -/
def initState (deployer feeSinkA : Addr) (bps : Nat) : State :=
  { rounds := fun _ => defaultRound
    upStakes := fun _ _ => 0
    downStakes := fun _ _ => 0
    nextRoundId := 0
    owner := deployer
    feeSink := feeSinkA
    feeBps := bps
    feeLog := [] }

/-- `createRound(market, startTs, lockTs, resolveTs)` (onlyOwner), with the
Tatkal60 fixed-duration checks. -/
def createRound (σ : State) (caller : Addr)
    (market startTs lockTs resolveTs now : Nat) : Except Err State :=
  if caller ≠ σ.owner then .error .NotOwner
  else if market = 0 then .error .InvalidMarket
  else if startTs < now then .error .StartInPast
  else if lockTs ≤ startTs then .error .LockNotAfterStart
  else if resolveTs ≤ lockTs then .error .ResolveNotAfterLock
  else if resolveTs ≤ now then .error .ResolveNotFuture
  else if resolveTs ≠ startTs + ROUND_SECONDS then .error .NotStartPlus60
  else if lockTs ≠ resolveTs - LOCK_GAP_SECONDS then .error .LockNotResolveMinus10
  else
    .ok { σ with
          nextRoundId := σ.nextRoundId + 1
          rounds := upd σ.rounds σ.nextRoundId
            { id := σ.nextRoundId
              market := market
              startTs := startTs
              lockTs := lockTs
              resolveTs := resolveTs
              refPrice := 0
              settlePrice := 0
              upPool := 0
              downPool := 0
              resolved := false
              feePaid := false
              outcome := 0 } }

/-- Post-state of a successful `betUp`: credit the caller's UP stake and the
UP pool, recording `ref` as the (possibly just lazily locked) reference
price. -/
def betUpApply (σ : State) (c : Addr) (rid v : Nat) (ref : Int) : State :=
  { σ with
    rounds := upd σ.rounds rid
      { σ.rounds rid with refPrice := ref, upPool := (σ.rounds rid).upPool + v }
    upStakes := upd σ.upStakes rid
      (upd (σ.upStakes rid) c (σ.upStakes rid c + v)) }

/-- Post-state of a successful `betDown`, symmetric to `betUpApply`. -/
def betDownApply (σ : State) (c : Addr) (rid v : Nat) (ref : Int) : State :=
  { σ with
    rounds := upd σ.rounds rid
      { σ.rounds rid with refPrice := ref, downPool := (σ.rounds rid).downPool + v }
    downStakes := upd σ.downStakes rid
      (upd (σ.downStakes rid) c (σ.downStakes rid c + v)) }

/-- The lazy reference-price lock shared by `betUp`/`betDown`: on the first
bet at/after `startTs` (detected by `refPrice == 0`) fetch a fresh oracle
price and require it positive; otherwise keep the stored reference. -/
def lockRef (round : Round) (now : Nat) (oraclePrice : Option Int) : Except Err Int :=
  if round.refPrice = 0 ∧ round.startTs ≤ now then
    match oraclePrice with
    | none => .error .StalePrice
    | some p => if p ≤ 0 then .error .InvalidRefPrice else .ok p
  else .ok round.refPrice

/-- `betUp(roundId)` with `msg.value = v` at time `now`. -/
def betUp (σ : State) (c : Addr) (rid v now : Nat) (oraclePrice : Option Int) :
    Except Err State :=
  if σ.nextRoundId ≤ rid then .error .RoundDoesNotExist
  else if (σ.rounds rid).resolved then .error .AlreadyResolved
  else if now < (σ.rounds rid).startTs then .error .NotStarted
  else if (σ.rounds rid).lockTs ≤ now then .error .BettingClosed
  else if v = 0 then .error .ZeroBet
  else if MAX_BET < v then .error .BetTooHigh
  else
    match lockRef (σ.rounds rid) now oraclePrice with
    | .error e => .error e
    | .ok ref => .ok (betUpApply σ c rid v ref)

/-- `betDown(roundId)` with `msg.value = v` at time `now`. -/
def betDown (σ : State) (c : Addr) (rid v now : Nat) (oraclePrice : Option Int) :
    Except Err State :=
  if σ.nextRoundId ≤ rid then .error .RoundDoesNotExist
  else if (σ.rounds rid).resolved then .error .AlreadyResolved
  else if now < (σ.rounds rid).startTs then .error .NotStarted
  else if (σ.rounds rid).lockTs ≤ now then .error .BettingClosed
  else if v = 0 then .error .ZeroBet
  else if MAX_BET < v then .error .BetTooHigh
  else
    match lockRef (σ.rounds rid) now oraclePrice with
    | .error e => .error e
    | .ok ref => .ok (betDownApply σ c rid v ref)

/-- Price-implied outcome of `resolve`: UP if the settle price rose above
the reference, DOWN if it fell below, FLAT on a tie. -/
def rawOutcomeOf (round : Round) (sp : Int) : Nat :=
  if round.refPrice < sp then 1 else if sp < round.refPrice then 2 else 3

/-- Stored outcome after the void-to-FLAT override: if nobody bet on the
price-implied winning side, the round is voided to FLAT. -/
def outcomeOf (round : Round) (sp : Int) : Nat :=
  if (rawOutcomeOf round sp = 1 ∧ round.upPool = 0) ∨
     (rawOutcomeOf round sp = 2 ∧ round.downPool = 0)
  then 3 else rawOutcomeOf round sp

/-- The fee charged at resolution: basis points of the whole pool. -/
def feeOf (round : Round) (feeBps : Nat) : Nat :=
  (round.upPool + round.downPool) * feeBps / BASIS_POINTS

/-- Whether `resolve` performs a fee transfer: non-FLAT outcome and a
positive fee amount. -/
def chargesFee (round : Round) (sp : Int) (feeBps : Nat) : Prop :=
  (outcomeOf round sp = 1 ∨ outcomeOf round sp = 2) ∧ 0 < feeOf round feeBps

instance (round : Round) (sp : Int) (feeBps : Nat) :
    Decidable (chargesFee round sp feeBps) := by
  unfold chargesFee; infer_instance

/-- Post-state of the oracle-settled branch of `resolve` with settle price
`sp`: record the price, pick the outcome, apply the void-to-FLAT override,
charge the fee once for non-FLAT outcomes, and freeze the round. -/
def resolveSettle (σ : State) (rid : Nat) (sp : Int) : State :=
  { σ with
    rounds := upd σ.rounds rid
      { σ.rounds rid with
        settlePrice := sp
        outcome := outcomeOf (σ.rounds rid) sp
        resolved := true
        feePaid := if chargesFee (σ.rounds rid) sp σ.feeBps then true
                   else (σ.rounds rid).feePaid }
    feeLog := if chargesFee (σ.rounds rid) sp σ.feeBps then
                (rid, feeOf (σ.rounds rid) σ.feeBps) :: σ.feeLog
              else σ.feeLog }

/-- Post-state of the no-oracle branch of `resolve` (`refPrice == 0`): the
round resolves FLAT with settle price 0 and no fee. -/
def resolveFlat (σ : State) (rid : Nat) : State :=
  { σ with
    rounds := upd σ.rounds rid
      { σ.rounds rid with outcome := 3, settlePrice := 0, resolved := true } }

/-- `resolve(roundId)` at time `now`.  `oraclePrice` is what the oracle
would answer if consulted; the `refPrice == 0` branch never consults it. -/
def resolve (σ : State) (rid now : Nat) (oraclePrice : Option Int) :
    Except Err State :=
  if σ.nextRoundId ≤ rid then .error .RoundDoesNotExist
  else if (σ.rounds rid).resolved then .error .AlreadyResolved
  else if now < (σ.rounds rid).resolveTs then .error .TooEarly
  else if (σ.rounds rid).refPrice = 0 then .ok (resolveFlat σ rid)
  else
    match oraclePrice with
    | none => .error .StalePrice
    | some sp =>
      if sp ≤ 0 then .error .InvalidSettlePrice
      else .ok (resolveSettle σ rid sp)

/-- The payout formula of `claim`, as a pure function of the round, the fee
rate in force at claim time and the claimant's recorded stakes.  (`claim`
separately rejects a non-FLAT round whose winning pool is zero before ever
evaluating the division.) -/
def payoutOf (round : Round) (feeBps userUp userDown : Nat) : Nat :=
  if round.outcome = 3 then userUp + userDown
  else
    let totalWinningStake := if round.outcome = 1 then round.upPool else round.downPool
    let totalLosingStake := if round.outcome = 1 then round.downPool else round.upPool
    let totalPool := totalWinningStake + totalLosingStake
    let feeAmount := totalPool * feeBps / BASIS_POINTS
    let distributable := totalPool - feeAmount
    let userWinningStake := if round.outcome = 1 then userUp else userDown
    userWinningStake * distributable / totalWinningStake

/-- Checks-effects-interactions: zero the caller's stake pair for the round. -/
def clearStakes (σ : State) (rid : Nat) (c : Addr) : State :=
  { σ with
    upStakes := upd σ.upStakes rid (upd (σ.upStakes rid) c 0)
    downStakes := upd σ.downStakes rid (upd (σ.downStakes rid) c 0) }

/-- `claim(roundId)` by `c`; on success returns the post-state and the
payout delivered (0 means no transfer is made). -/
def claim (σ : State) (c : Addr) (rid : Nat) : Except Err (State × Nat) :=
  if σ.nextRoundId ≤ rid then .error .RoundDoesNotExist
  else if (σ.rounds rid).resolved = false then .error .NotResolved
  else if σ.upStakes rid c + σ.downStakes rid c = 0 then .error .NothingToClaim
  else if (σ.rounds rid).outcome ≠ 3 ∧
          (if (σ.rounds rid).outcome = 1 then (σ.rounds rid).upPool
           else (σ.rounds rid).downPool) = 0 then .error .NoWinners
  else
    .ok (clearStakes σ rid c,
         payoutOf (σ.rounds rid) σ.feeBps (σ.upStakes rid c) (σ.downStakes rid c))

/-- Just the payout of a `claim`, for stating numeric facts. -/
def claimAmt (σ : State) (c : Addr) (rid : Nat) : Except Err Nat :=
  (claim σ c rid).map (fun p => p.2)

/-- `setFees(_feeSink, _feeBps)` (onlyOwner). -/
def setFees (σ : State) (caller sink : Addr) (bps : Nat) : Except Err State :=
  if caller ≠ σ.owner then .error .NotOwner
  else if sink = 0 then .error .InvalidFeeSink
  else if 500 < bps then .error .FeeTooHigh
  else .ok { σ with feeSink := sink, feeBps := bps }

/-- `getRound(roundId)`: reverts for ids that were never allocated. -/
def getRound (σ : State) (rid : Nat) : Except Err Round :=
  if σ.nextRoundId ≤ rid then .error .RoundDoesNotExist
  else .ok (σ.rounds rid)

/-- `getUserStakes(roundId, user)`: a total function, no existence check. -/
def getUserStakes (σ : State) (rid : Nat) (user : Addr) : Nat × Nat :=
  (σ.upStakes rid user, σ.downStakes rid user)

/-- One successful public state-mutating call of the round engine.  (The
remaining entry points — internal-credit bookkeeping, `setOracle`,
`setCCIPReceiver`, `recoverExcess` — never touch rounds, stakes, the fee
rate or the fee log.) -/
inductive Step : State → State → Prop where
  | create {σ σ' : State} {c m a b r now : Nat} :
      createRound σ c m a b r now = Except.ok σ' → Step σ σ'
  | betU {σ σ' : State} {c rid v now : Nat} {pr : Option Int} :
      betUp σ c rid v now pr = Except.ok σ' → Step σ σ'
  | betD {σ σ' : State} {c rid v now : Nat} {pr : Option Int} :
      betDown σ c rid v now pr = Except.ok σ' → Step σ σ'
  | res {σ σ' : State} {rid now : Nat} {pr : Option Int} :
      resolve σ rid now pr = Except.ok σ' → Step σ σ'
  | clm {σ σ' : State} {c rid amt : Nat} :
      claim σ c rid = Except.ok (σ', amt) → Step σ σ'
  | fees {σ σ' : State} {c s bps : Nat} :
      setFees σ c s bps = Except.ok σ' → Step σ σ'

/-- States reachable from a freshly deployed contract by successful calls. -/
inductive Reachable : State → Prop where
  | init (deployer feeSinkA : Addr) (bps : Nat) :
      feeSinkA ≠ 0 → bps ≤ 500 → Reachable (initState deployer feeSinkA bps)
  | step {σ σ' : State} : Reachable σ → Step σ σ' → Reachable σ'

/-- Any number of successful calls. -/
abbrev Steps : State → State → Prop := Relation.ReflTransGen Step

/-- Unwrap a known-successful call result (the fallback is irrelevant: every
use below is accompanied by a proof that the call returned `ok`). -/
def unwrap (d : State) : Except Err State → State
  | Except.ok s => s
  | Except.error _ => d

/-- Unwrap for `claim`, which also returns a payout. -/
def unwrapC (d : State) : Except Err (State × Nat) → State
  | Except.ok p => p.1
  | Except.error _ => d

/-
A concrete execution used by several claims: deploy with owner 1, fee sink
2, feeBps 500; create round 0 (start 100, lock 150, resolve 160); user 5
bets 20 UP (oracle price 1000 locks the reference), user 6 bets 80 UP,
user 7 bets 50 DOWN; at t = 160 the oracle answers 2000, so the round
resolves UP with pools (100, 50) and fee 7.
-/

/-- Freshly deployed example contract. -/
def st0 : State := initState 1 2 500

/-- After `createRound` for round 0. -/
def st1 : State := unwrap st0 (createRound st0 1 7 100 150 160 100)

/-- After user 5 bets 20 UP at t = 100 (locks refPrice = 1000). -/
def st2 : State := unwrap st1 (betUp st1 5 0 20 100 (some 1000))

/-- After user 6 bets 80 UP at t = 110. -/
def st3 : State := unwrap st2 (betUp st2 6 0 80 110 none)

/-- After user 7 bets 50 DOWN at t = 120. -/
def st4 : State := unwrap st3 (betDown st3 7 0 50 120 none)

/-- After `resolve` at t = 160 with settle price 2000: outcome UP. -/
def st5 : State := unwrap st4 (resolve st4 0 160 (some 2000))

/-- After the owner lowers the fee to 0 bps post-resolution. -/
def st6 : State := unwrap st5 (setFees st5 1 2 0)

/-- Variant execution for the void-to-FLAT rule: only user 7 bets (50 DOWN,
reference 1000), then the price rises to 2000 — UP is implied but the UP
pool is empty. -/
def stV2 : State := unwrap st1 (betDown st1 7 0 50 110 (some 1000))

/-- Resolving the void round: outcome is overridden to FLAT. -/
def stV3 : State := unwrap stV2 (resolve stV2 0 160 (some 2000))

/-! ### Helper lemmas about map updates and finite sums -/

theorem upd_self {α : Type} (f : Nat → α) (k : Nat) (v : α) : upd f k v k = v := by
  simp [upd]

theorem upd_ne {α : Type} (f : Nat → α) {k j : Nat} (v : α) (h : j ≠ k) :
    upd f k v j = f j := by
  simp [upd, h]

theorem sum_upd_of_mem {S : Finset Addr} {f : Nat → Nat} {c : Nat} {v : Nat}
    (hc : c ∈ S) :
    ∑ a ∈ S, upd f c v a = (∑ a ∈ S.erase c, f a) + v := by
  rw [← Finset.sum_erase_add S _ hc]
  congr 1
  · exact Finset.sum_congr rfl fun a ha => upd_ne f v (Finset.ne_of_mem_erase ha)
  · exact upd_self f c v

theorem sum_upd_of_not_mem {S : Finset Addr} {f : Nat → Nat} {c : Nat} {v : Nat}
    (hc : c ∉ S) :
    ∑ a ∈ S, upd f c v a = ∑ a ∈ S, f a :=
  Finset.sum_congr rfl fun _ ha => upd_ne f v (fun e => hc (e ▸ ha))

theorem sum_upd_add_of_mem {S : Finset Addr} {f : Nat → Nat} {c v : Nat}
    (hc : c ∈ S) :
    ∑ a ∈ S, upd f c (f c + v) a = (∑ a ∈ S, f a) + v := by
  rw [sum_upd_of_mem hc, ← Finset.sum_erase_add S _ hc]
  omega

theorem sum_upd_add_le {S : Finset Addr} {f : Nat → Nat} {c v : Nat} :
    ∑ a ∈ S, upd f c (f c + v) a ≤ (∑ a ∈ S, f a) + v := by
  by_cases hc : c ∈ S
  · exact le_of_eq (sum_upd_add_of_mem hc)
  · rw [sum_upd_of_not_mem hc]; omega

theorem sum_upd_zero_le {S : Finset Addr} {f : Nat → Nat} {c : Nat} :
    ∑ a ∈ S, upd f c 0 a ≤ ∑ a ∈ S, f a := by
  refine Finset.sum_le_sum fun a _ => ?_
  by_cases hak : a = c
  · subst hak; rw [upd_self]; exact Nat.zero_le _
  · rw [upd_ne f 0 hak]

theorem nat_div_add_div_le (a b c : Nat) : a / c + b / c ≤ (a + b) / c := by
  rcases Nat.eq_zero_or_pos c with hc | hc
  · subst hc; simp
  · rw [Nat.le_div_iff_mul_le hc, Nat.add_mul]
    exact Nat.add_le_add (Nat.div_mul_le_self a c) (Nat.div_mul_le_self b c)

theorem sum_mul_div_le (S : Finset Addr) (g : Nat → Nat) (D W : Nat) :
    ∑ a ∈ S, g a * D / W ≤ (∑ a ∈ S, g a) * D / W := by
  classical
  induction S using Finset.induction_on with
  | empty => simp
  | insert hnotmem ih =>
    rw [Finset.sum_insert hnotmem, Finset.sum_insert hnotmem, Nat.add_mul]
    calc _ ≤ _ + _ := Nat.add_le_add_left ih _
    _ ≤ _ := nat_div_add_div_le _ _ _

/-! ### Characterisations of the successful executions of each entry point -/

theorem createRound_ok {σ σ' : State} {c m a b r now : Nat}
    (h : createRound σ c m a b r now = Except.ok σ') :
    c = σ.owner ∧ m ≠ 0 ∧ now ≤ a ∧ a < b ∧ b < r ∧ now < r ∧
    r = a + ROUND_SECONDS ∧ b = r - LOCK_GAP_SECONDS ∧
    σ' = { σ with
           nextRoundId := σ.nextRoundId + 1
           rounds := upd σ.rounds σ.nextRoundId
             { id := σ.nextRoundId
               market := m
               startTs := a
               lockTs := b
               resolveTs := r
               refPrice := 0
               settlePrice := 0
               upPool := 0
               downPool := 0
               resolved := false
               feePaid := false
               outcome := 0 } } := by
  unfold createRound at h
  split at h
  · exact Except.noConfusion h
  next h1 =>
  split at h
  · exact Except.noConfusion h
  next h2 =>
  split at h
  · exact Except.noConfusion h
  next h3 =>
  split at h
  · exact Except.noConfusion h
  next h4 =>
  split at h
  · exact Except.noConfusion h
  next h5 =>
  split at h
  · exact Except.noConfusion h
  next h6 =>
  split at h
  · exact Except.noConfusion h
  next h7 =>
  split at h
  · exact Except.noConfusion h
  next h8 =>
  injection h with h
  exact ⟨not_not.mp h1, h2, by omega, by omega, by omega, by omega,
    not_not.mp h7, not_not.mp h8, h.symm⟩

theorem lockRef_ok {round : Round} {now : Nat} {pr : Option Int} {ref : Int}
    (hs : round.startTs ≤ now) (h : lockRef round now pr = Except.ok ref) :
    (round.refPrice = 0 → pr = some ref ∧ 0 < ref) ∧
    (round.refPrice ≠ 0 → ref = round.refPrice) := by
  unfold lockRef at h
  split at h
  next hc =>
    cases pr with
    | none => exact Except.noConfusion h
    | some p =>
      simp only at h
      split at h
      · exact Except.noConfusion h
      next hp =>
        injection h with h
        subst h
        exact ⟨fun _ => ⟨rfl, by omega⟩, fun hne => absurd hc.1 hne⟩
  next hc =>
    injection h with h
    subst h
    refine ⟨fun h0 => absurd ⟨h0, hs⟩ hc, fun _ => rfl⟩

theorem betUp_ok {σ σ' : State} {c rid v now : Nat} {pr : Option Int}
    (h : betUp σ c rid v now pr = Except.ok σ') :
    rid < σ.nextRoundId ∧ (σ.rounds rid).resolved = false ∧
    (σ.rounds rid).startTs ≤ now ∧ now < (σ.rounds rid).lockTs ∧
    0 < v ∧ v ≤ MAX_BET ∧
    ∃ ref : Int,
      ((σ.rounds rid).refPrice = 0 → pr = some ref ∧ 0 < ref) ∧
      ((σ.rounds rid).refPrice ≠ 0 → ref = (σ.rounds rid).refPrice) ∧
      σ' = betUpApply σ c rid v ref := by
  unfold betUp at h
  split at h
  · exact Except.noConfusion h
  next h1 =>
  split at h
  next h2 => exact Except.noConfusion h
  next h2 =>
  split at h
  · exact Except.noConfusion h
  next h3 =>
  split at h
  · exact Except.noConfusion h
  next h4 =>
  split at h
  · exact Except.noConfusion h
  next h5 =>
  split at h
  · exact Except.noConfusion h
  next h6 =>
  split at h
  next e he => exact Except.noConfusion h
  next ref hre =>
    injection h with h
    have hlk := lockRef_ok (by omega) hre
    exact ⟨by omega, by simpa using h2, by omega, by omega, by omega, by omega,
      ref, hlk.1, hlk.2, h.symm⟩

theorem betDown_ok {σ σ' : State} {c rid v now : Nat} {pr : Option Int}
    (h : betDown σ c rid v now pr = Except.ok σ') :
    rid < σ.nextRoundId ∧ (σ.rounds rid).resolved = false ∧
    (σ.rounds rid).startTs ≤ now ∧ now < (σ.rounds rid).lockTs ∧
    0 < v ∧ v ≤ MAX_BET ∧
    ∃ ref : Int,
      ((σ.rounds rid).refPrice = 0 → pr = some ref ∧ 0 < ref) ∧
      ((σ.rounds rid).refPrice ≠ 0 → ref = (σ.rounds rid).refPrice) ∧
      σ' = betDownApply σ c rid v ref := by
  unfold betDown at h
  split at h
  · exact Except.noConfusion h
  next h1 =>
  split at h
  next h2 => exact Except.noConfusion h
  next h2 =>
  split at h
  · exact Except.noConfusion h
  next h3 =>
  split at h
  · exact Except.noConfusion h
  next h4 =>
  split at h
  · exact Except.noConfusion h
  next h5 =>
  split at h
  · exact Except.noConfusion h
  next h6 =>
  split at h
  next e he => exact Except.noConfusion h
  next ref hre =>
    injection h with h
    have hlk := lockRef_ok (by omega) hre
    exact ⟨by omega, by simpa using h2, by omega, by omega, by omega, by omega,
      ref, hlk.1, hlk.2, h.symm⟩

theorem resolve_ok {σ σ' : State} {rid now : Nat} {pr : Option Int}
    (h : resolve σ rid now pr = Except.ok σ') :
    rid < σ.nextRoundId ∧ (σ.rounds rid).resolved = false ∧
    (σ.rounds rid).resolveTs ≤ now ∧
    (((σ.rounds rid).refPrice = 0 ∧ σ' = resolveFlat σ rid) ∨
     (∃ sp : Int, (σ.rounds rid).refPrice ≠ 0 ∧ pr = some sp ∧ 0 < sp ∧
        σ' = resolveSettle σ rid sp)) := by
  unfold resolve at h
  split at h
  · exact Except.noConfusion h
  next h1 =>
  split at h
  next h2 => exact Except.noConfusion h
  next h2 =>
  split at h
  · exact Except.noConfusion h
  next h3 =>
  split at h
  next h4 =>
    injection h with h
    exact ⟨by omega, by simpa using h2, by omega, Or.inl ⟨h4, h.symm⟩⟩
  next h4 =>
  split at h
  · exact Except.noConfusion h
  next sp =>
  split at h
  · exact Except.noConfusion h
  next hp =>
  injection h with h
  exact ⟨by omega, by simpa using h2, by omega, Or.inr ⟨sp, h4, rfl, by omega, h.symm⟩⟩

theorem claim_ok {σ σ' : State} {c rid amt : Nat}
    (h : claim σ c rid = Except.ok (σ', amt)) :
    rid < σ.nextRoundId ∧ (σ.rounds rid).resolved = true ∧
    0 < σ.upStakes rid c + σ.downStakes rid c ∧
    ¬((σ.rounds rid).outcome ≠ 3 ∧
      (if (σ.rounds rid).outcome = 1 then (σ.rounds rid).upPool
       else (σ.rounds rid).downPool) = 0) ∧
    σ' = clearStakes σ rid c ∧
    amt = payoutOf (σ.rounds rid) σ.feeBps (σ.upStakes rid c) (σ.downStakes rid c) := by
  unfold claim at h
  split at h
  · exact Except.noConfusion h
  next h1 =>
  split at h
  next h2 => exact Except.noConfusion h
  next h2 =>
  split at h
  · exact Except.noConfusion h
  next h3 =>
  by_cases hw : (σ.rounds rid).outcome ≠ 3 ∧
      (if (σ.rounds rid).outcome = 1 then (σ.rounds rid).upPool
       else (σ.rounds rid).downPool) = 0
  · rw [if_pos hw] at h
    exact Except.noConfusion h
  · rw [if_neg hw] at h
    injection h with h
    injection h with h5 h6
    have hres : (σ.rounds rid).resolved = true := by
      cases hb : (σ.rounds rid).resolved with
      | false => exact absurd hb h2
      | true => rfl
    exact ⟨by omega, hres, by omega, hw, h5.symm, h6.symm⟩

theorem setFees_ok {σ σ' : State} {caller sink bps : Nat}
    (h : setFees σ caller sink bps = Except.ok σ') :
    caller = σ.owner ∧ sink ≠ 0 ∧ bps ≤ 500 ∧
    σ' = { σ with feeSink := sink, feeBps := bps } := by
  unfold setFees at h
  split at h
  · exact Except.noConfusion h
  next h1 =>
  split at h
  · exact Except.noConfusion h
  next h2 =>
  split at h
  · exact Except.noConfusion h
  next h3 =>
  injection h with h
  exact ⟨not_not.mp h1, h2, by omega, h.symm⟩

/-! ### The state invariant and its preservation -/

/-- Facts maintained by every reachable state: the fee bound, zero-state of
unallocated round ids, pool/stake accounting, outcome sanity of resolved
rounds, and the reference-price discipline. -/
structure Inv (σ : State) : Prop where
  fee_le : σ.feeBps ≤ 500
  fresh_default : ∀ r, σ.nextRoundId ≤ r → σ.rounds r = defaultRound
  fresh_up : ∀ r, σ.nextRoundId ≤ r → ∀ u, σ.upStakes r u = 0
  fresh_down : ∀ r, σ.nextRoundId ≤ r → ∀ u, σ.downStakes r u = 0
  pools_up : ∀ r, (σ.rounds r).resolved = false → ∀ S : Finset Addr,
      (∀ a, a ∉ S → σ.upStakes r a = 0) →
      (σ.rounds r).upPool = ∑ a ∈ S, σ.upStakes r a
  pools_down : ∀ r, (σ.rounds r).resolved = false → ∀ S : Finset Addr,
      (∀ a, a ∉ S → σ.downStakes r a = 0) →
      (σ.rounds r).downPool = ∑ a ∈ S, σ.downStakes r a
  sum_up_le : ∀ r (S : Finset Addr), (∑ a ∈ S, σ.upStakes r a) ≤ (σ.rounds r).upPool
  sum_down_le : ∀ r (S : Finset Addr), (∑ a ∈ S, σ.downStakes r a) ≤ (σ.rounds r).downPool
  outcome_range : ∀ r, (σ.rounds r).resolved = true →
      (σ.rounds r).outcome = 1 ∨ (σ.rounds r).outcome = 2 ∨ (σ.rounds r).outcome = 3
  up_winner : ∀ r, (σ.rounds r).resolved = true → (σ.rounds r).outcome = 1 →
      0 < (σ.rounds r).upPool
  down_winner : ∀ r, (σ.rounds r).resolved = true → (σ.rounds r).outcome = 2 →
      0 < (σ.rounds r).downPool
  ref_nonneg : ∀ r, 0 ≤ (σ.rounds r).refPrice
  ref_pools : ∀ r, ((σ.rounds r).refPrice = 0 ↔
      (σ.rounds r).upPool = 0 ∧ (σ.rounds r).downPool = 0)

theorem rawOutcomeOf_cases (round : Round) (sp : Int) :
    rawOutcomeOf round sp = 1 ∨ rawOutcomeOf round sp = 2 ∨ rawOutcomeOf round sp = 3 := by
  unfold rawOutcomeOf
  split
  · exact Or.inl rfl
  · split
    · exact Or.inr (Or.inl rfl)
    · exact Or.inr (Or.inr rfl)

theorem outcomeOf_cases (round : Round) (sp : Int) :
    outcomeOf round sp = 1 ∨ outcomeOf round sp = 2 ∨ outcomeOf round sp = 3 := by
  unfold outcomeOf
  split
  · exact Or.inr (Or.inr rfl)
  · exact rawOutcomeOf_cases round sp

theorem outcomeOf_up_pos (round : Round) (sp : Int) (h : outcomeOf round sp = 1) :
    0 < round.upPool := by
  unfold outcomeOf at h
  split at h
  · omega
  next hnv =>
    have : ¬(rawOutcomeOf round sp = 1 ∧ round.upPool = 0) := fun hc => hnv (Or.inl hc)
    omega

theorem outcomeOf_down_pos (round : Round) (sp : Int) (h : outcomeOf round sp = 2) :
    0 < round.downPool := by
  unfold outcomeOf at h
  split at h
  · omega
  next hnv =>
    have : ¬(rawOutcomeOf round sp = 2 ∧ round.downPool = 0) := fun hc => hnv (Or.inr hc)
    omega

theorem resolved_lt {σ : State} (hI : Inv σ) {r : Nat}
    (h : (σ.rounds r).resolved = true) : r < σ.nextRoundId := by
  by_contra hge
  have hd := hI.fresh_default r (by omega)
  rw [hd] at h
  simp [defaultRound] at h

theorem inv_init {d f : Addr} {bps : Nat} (hb : bps ≤ 500) :
    Inv (initState d f bps) := by
  refine ⟨hb, fun r _ => rfl, fun r _ u => rfl, fun r _ u => rfl,
    ?_, ?_, ?_, ?_, ?_, ?_, ?_, ?_, ?_⟩
  · exact fun r _ S _ => (Finset.sum_eq_zero fun a _ => rfl).symm
  · exact fun r _ S _ => (Finset.sum_eq_zero fun a _ => rfl).symm
  · exact fun r S => le_of_eq (Finset.sum_eq_zero fun a _ => rfl)
  · exact fun r S => le_of_eq (Finset.sum_eq_zero fun a _ => rfl)
  · intro r h; simp [initState, defaultRound] at h
  · intro r h; simp [initState, defaultRound] at h
  · intro r h; simp [initState, defaultRound] at h
  · exact fun r => le_refl 0
  · exact fun r => ⟨fun _ => ⟨rfl, rfl⟩, fun _ => rfl⟩

theorem inv_create {σ σ' : State} {c m a b r now : Nat}
    (hI : Inv σ) (h : createRound σ c m a b r now = Except.ok σ') : Inv σ' := by
  obtain ⟨-, -, -, -, -, -, -, -, hσ'⟩ := createRound_ok h
  subst hσ'
  constructor
  · exact hI.fee_le
  · intro j hj
    simp only at hj ⊢
    rw [upd_ne _ _ (by omega)]
    exact hI.fresh_default j (by omega)
  · intro j hj u
    exact hI.fresh_up j (by simp only at hj; omega) u
  · intro j hj u
    exact hI.fresh_down j (by simp only at hj; omega) u
  · intro j hres S hS
    simp only at hres hS ⊢
    by_cases hj : j = σ.nextRoundId
    · subst hj
      rw [upd_self]
      exact (Finset.sum_eq_zero fun x _ => hI.fresh_up _ le_rfl x).symm
    · rw [upd_ne _ _ hj] at hres ⊢
      exact hI.pools_up j hres S hS
  · intro j hres S hS
    simp only at hres hS ⊢
    by_cases hj : j = σ.nextRoundId
    · subst hj
      rw [upd_self]
      exact (Finset.sum_eq_zero fun x _ => hI.fresh_down _ le_rfl x).symm
    · rw [upd_ne _ _ hj] at hres ⊢
      exact hI.pools_down j hres S hS
  · intro j S
    simp only
    by_cases hj : j = σ.nextRoundId
    · subst hj
      rw [upd_self]
      exact le_of_eq (Finset.sum_eq_zero fun x _ => hI.fresh_up _ le_rfl x)
    · rw [upd_ne _ _ hj]
      exact hI.sum_up_le j S
  · intro j S
    simp only
    by_cases hj : j = σ.nextRoundId
    · subst hj
      rw [upd_self]
      exact le_of_eq (Finset.sum_eq_zero fun x _ => hI.fresh_down _ le_rfl x)
    · rw [upd_ne _ _ hj]
      exact hI.sum_down_le j S
  · intro j hres
    simp only at hres ⊢
    by_cases hj : j = σ.nextRoundId
    · subst hj; rw [upd_self] at hres; simp at hres
    · rw [upd_ne _ _ hj] at hres ⊢
      exact hI.outcome_range j hres
  · intro j hres
    simp only at hres ⊢
    by_cases hj : j = σ.nextRoundId
    · subst hj; rw [upd_self] at hres; simp at hres
    · rw [upd_ne _ _ hj] at hres ⊢
      exact hI.up_winner j hres
  · intro j hres
    simp only at hres ⊢
    by_cases hj : j = σ.nextRoundId
    · subst hj; rw [upd_self] at hres; simp at hres
    · rw [upd_ne _ _ hj] at hres ⊢
      exact hI.down_winner j hres
  · intro j
    simp only
    by_cases hj : j = σ.nextRoundId
    · subst hj; rw [upd_self]
    · rw [upd_ne _ _ hj]
      exact hI.ref_nonneg j
  · intro j
    simp only
    by_cases hj : j = σ.nextRoundId
    · subst hj; rw [upd_self]
      exact ⟨fun _ => ⟨rfl, rfl⟩, fun _ => rfl⟩
    · rw [upd_ne _ _ hj]
      exact hI.ref_pools j

theorem inv_betU {σ σ' : State} {c rid v now : Nat} {pr : Option Int}
    (hI : Inv σ) (h : betUp σ c rid v now pr = Except.ok σ') : Inv σ' := by
  obtain ⟨hrid, hres, -, -, hv, -, ref, href0, hrefne, hσ'⟩ := betUp_ok h
  subst hσ'
  have hrefnn : 0 ≤ ref := by
    by_cases h0 : (σ.rounds rid).refPrice = 0
    · have := (href0 h0).2; omega
    · rw [hrefne h0]; exact hI.ref_nonneg rid
  have hrefne0 : ref ≠ 0 := by
    by_cases h0 : (σ.rounds rid).refPrice = 0
    · have := (href0 h0).2; omega
    · rw [hrefne h0]; exact h0
  constructor
  · exact hI.fee_le
  · intro j hj
    simp only [betUpApply] at hj ⊢
    rw [upd_ne _ _ (show j ≠ rid by omega)]
    exact hI.fresh_default j (by omega)
  · intro j hj u
    simp only [betUpApply] at hj ⊢
    rw [upd_ne _ _ (show j ≠ rid by omega)]
    exact hI.fresh_up j (by omega) u
  · intro j hj u
    simp only [betUpApply] at hj ⊢
    exact hI.fresh_down j (by omega) u
  · intro j hj S hS
    simp only [betUpApply] at hj hS ⊢
    by_cases hjr : j = rid
    · subst hjr
      simp only [upd_self] at hS ⊢
      have hcS : c ∈ S := by
        by_contra hc
        have h0 := hS c hc
        rw [upd_self] at h0
        omega
      rw [sum_upd_add_of_mem hcS]
      have hS' : ∀ a, a ∉ S → σ.upStakes j a = 0 := by
        intro a ha
        have h0 := hS a ha
        rwa [upd_ne _ _ (fun e => (e ▸ ha) hcS)] at h0
      rw [← hI.pools_up j hres S hS']
    · simp only [upd_ne _ _ hjr] at hj hS ⊢
      exact hI.pools_up j hj S hS
  · intro j hj S hS
    simp only [betUpApply] at hj hS ⊢
    by_cases hjr : j = rid
    · subst hjr
      simp only [upd_self] at hj ⊢
      exact hI.pools_down j hres S hS
    · simp only [upd_ne _ _ hjr] at hj ⊢
      exact hI.pools_down j hj S hS
  · intro j S
    simp only [betUpApply]
    by_cases hjr : j = rid
    · subst hjr
      simp only [upd_self]
      calc ∑ a ∈ S, upd (σ.upStakes j) c (σ.upStakes j c + v) a
          ≤ (∑ a ∈ S, σ.upStakes j a) + v := sum_upd_add_le
        _ ≤ (σ.rounds j).upPool + v := Nat.add_le_add_right (hI.sum_up_le j S) v
    · simp only [upd_ne _ _ hjr]
      exact hI.sum_up_le j S
  · intro j S
    simp only [betUpApply]
    by_cases hjr : j = rid
    · subst hjr
      simp only [upd_self]
      exact hI.sum_down_le j S
    · simp only [upd_ne _ _ hjr]
      exact hI.sum_down_le j S
  · intro j hj
    simp only [betUpApply] at hj ⊢
    by_cases hjr : j = rid
    · subst hjr; simp only [upd_self] at hj; simp [hres] at hj
    · simp only [upd_ne _ _ hjr] at hj ⊢
      exact hI.outcome_range j hj
  · intro j hj
    simp only [betUpApply] at hj ⊢
    by_cases hjr : j = rid
    · subst hjr; simp only [upd_self] at hj; simp [hres] at hj
    · simp only [upd_ne _ _ hjr] at hj ⊢
      exact hI.up_winner j hj
  · intro j hj
    simp only [betUpApply] at hj ⊢
    by_cases hjr : j = rid
    · subst hjr; simp only [upd_self] at hj; simp [hres] at hj
    · simp only [upd_ne _ _ hjr] at hj ⊢
      exact hI.down_winner j hj
  · intro j
    simp only [betUpApply]
    by_cases hjr : j = rid
    · subst hjr; simp only [upd_self]; exact hrefnn
    · simp only [upd_ne _ _ hjr]
      exact hI.ref_nonneg j
  · intro j
    simp only [betUpApply]
    by_cases hjr : j = rid
    · subst hjr; simp only [upd_self]
      exact ⟨fun h0 => absurd h0 hrefne0, fun hp => absurd hp.1 (by omega)⟩
    · simp only [upd_ne _ _ hjr]
      exact hI.ref_pools j

theorem inv_betD {σ σ' : State} {c rid v now : Nat} {pr : Option Int}
    (hI : Inv σ) (h : betDown σ c rid v now pr = Except.ok σ') : Inv σ' := by
  obtain ⟨hrid, hres, -, -, hv, -, ref, href0, hrefne, hσ'⟩ := betDown_ok h
  subst hσ'
  have hrefnn : 0 ≤ ref := by
    by_cases h0 : (σ.rounds rid).refPrice = 0
    · have := (href0 h0).2; omega
    · rw [hrefne h0]; exact hI.ref_nonneg rid
  have hrefne0 : ref ≠ 0 := by
    by_cases h0 : (σ.rounds rid).refPrice = 0
    · have := (href0 h0).2; omega
    · rw [hrefne h0]; exact h0
  constructor
  · exact hI.fee_le
  · intro j hj
    simp only [betDownApply] at hj ⊢
    rw [upd_ne _ _ (show j ≠ rid by omega)]
    exact hI.fresh_default j (by omega)
  · intro j hj u
    simp only [betDownApply] at hj ⊢
    exact hI.fresh_up j (by omega) u
  · intro j hj u
    simp only [betDownApply] at hj ⊢
    rw [upd_ne _ _ (show j ≠ rid by omega)]
    exact hI.fresh_down j (by omega) u
  · intro j hj S hS
    simp only [betDownApply] at hj hS ⊢
    by_cases hjr : j = rid
    · subst hjr
      simp only [upd_self] at hj ⊢
      exact hI.pools_up j hres S hS
    · simp only [upd_ne _ _ hjr] at hj ⊢
      exact hI.pools_up j hj S hS
  · intro j hj S hS
    simp only [betDownApply] at hj hS ⊢
    by_cases hjr : j = rid
    · subst hjr
      simp only [upd_self] at hS ⊢
      have hcS : c ∈ S := by
        by_contra hc
        have h0 := hS c hc
        rw [upd_self] at h0
        omega
      rw [sum_upd_add_of_mem hcS]
      have hS' : ∀ a, a ∉ S → σ.downStakes j a = 0 := by
        intro a ha
        have h0 := hS a ha
        rwa [upd_ne _ _ (fun e => (e ▸ ha) hcS)] at h0
      rw [← hI.pools_down j hres S hS']
    · simp only [upd_ne _ _ hjr] at hj hS ⊢
      exact hI.pools_down j hj S hS
  · intro j S
    simp only [betDownApply]
    by_cases hjr : j = rid
    · subst hjr
      simp only [upd_self]
      exact hI.sum_up_le j S
    · simp only [upd_ne _ _ hjr]
      exact hI.sum_up_le j S
  · intro j S
    simp only [betDownApply]
    by_cases hjr : j = rid
    · subst hjr
      simp only [upd_self]
      calc ∑ a ∈ S, upd (σ.downStakes j) c (σ.downStakes j c + v) a
          ≤ (∑ a ∈ S, σ.downStakes j a) + v := sum_upd_add_le
        _ ≤ (σ.rounds j).downPool + v := Nat.add_le_add_right (hI.sum_down_le j S) v
    · simp only [upd_ne _ _ hjr]
      exact hI.sum_down_le j S
  · intro j hj
    simp only [betDownApply] at hj ⊢
    by_cases hjr : j = rid
    · subst hjr; simp only [upd_self] at hj; simp [hres] at hj
    · simp only [upd_ne _ _ hjr] at hj ⊢
      exact hI.outcome_range j hj
  · intro j hj
    simp only [betDownApply] at hj ⊢
    by_cases hjr : j = rid
    · subst hjr; simp only [upd_self] at hj; simp [hres] at hj
    · simp only [upd_ne _ _ hjr] at hj ⊢
      exact hI.up_winner j hj
  · intro j hj
    simp only [betDownApply] at hj ⊢
    by_cases hjr : j = rid
    · subst hjr; simp only [upd_self] at hj; simp [hres] at hj
    · simp only [upd_ne _ _ hjr] at hj ⊢
      exact hI.down_winner j hj
  · intro j
    simp only [betDownApply]
    by_cases hjr : j = rid
    · subst hjr; simp only [upd_self]; exact hrefnn
    · simp only [upd_ne _ _ hjr]
      exact hI.ref_nonneg j
  · intro j
    simp only [betDownApply]
    by_cases hjr : j = rid
    · subst hjr; simp only [upd_self]
      exact ⟨fun h0 => absurd h0 hrefne0, fun hp => absurd hp.2 (by omega)⟩
    · simp only [upd_ne _ _ hjr]
      exact hI.ref_pools j

theorem inv_resolve {σ σ' : State} {rid now : Nat} {pr : Option Int}
    (hI : Inv σ) (h : resolve σ rid now pr = Except.ok σ') : Inv σ' := by
  obtain ⟨hrid, hres, -, hbr⟩ := resolve_ok h
  rcases hbr with ⟨href, hσ'⟩ | ⟨sp, href, -, hsp, hσ'⟩
  · subst hσ'
    constructor
    · exact hI.fee_le
    · intro j hj
      simp only [resolveFlat] at hj ⊢
      rw [upd_ne _ _ (show j ≠ rid by omega)]
      exact hI.fresh_default j (by omega)
    · intro j hj u
      simp only [resolveFlat] at hj ⊢
      exact hI.fresh_up j (by omega) u
    · intro j hj u
      simp only [resolveFlat] at hj ⊢
      exact hI.fresh_down j (by omega) u
    · intro j hj S hS
      simp only [resolveFlat] at hj hS ⊢
      by_cases hjr : j = rid
      · subst hjr; simp only [upd_self] at hj; exact absurd hj (by simp)
      · simp only [upd_ne _ _ hjr] at hj ⊢
        exact hI.pools_up j hj S hS
    · intro j hj S hS
      simp only [resolveFlat] at hj hS ⊢
      by_cases hjr : j = rid
      · subst hjr; simp only [upd_self] at hj; exact absurd hj (by simp)
      · simp only [upd_ne _ _ hjr] at hj ⊢
        exact hI.pools_down j hj S hS
    · intro j S
      simp only [resolveFlat]
      by_cases hjr : j = rid
      · subst hjr; simp only [upd_self]
        exact hI.sum_up_le j S
      · simp only [upd_ne _ _ hjr]
        exact hI.sum_up_le j S
    · intro j S
      simp only [resolveFlat]
      by_cases hjr : j = rid
      · subst hjr; simp only [upd_self]
        exact hI.sum_down_le j S
      · simp only [upd_ne _ _ hjr]
        exact hI.sum_down_le j S
    · intro j hj
      simp only [resolveFlat] at hj ⊢
      by_cases hjr : j = rid
      · subst hjr; simp only [upd_self]
        exact Or.inr (Or.inr trivial)
      · simp only [upd_ne _ _ hjr] at hj ⊢
        exact hI.outcome_range j hj
    · intro j hj
      simp only [resolveFlat] at hj ⊢
      by_cases hjr : j = rid
      · subst hjr; simp only [upd_self]
        omega
      · simp only [upd_ne _ _ hjr] at hj ⊢
        exact hI.up_winner j hj
    · intro j hj
      simp only [resolveFlat] at hj ⊢
      by_cases hjr : j = rid
      · subst hjr; simp only [upd_self]
        omega
      · simp only [upd_ne _ _ hjr] at hj ⊢
        exact hI.down_winner j hj
    · intro j
      simp only [resolveFlat]
      by_cases hjr : j = rid
      · subst hjr; simp only [upd_self]
        exact hI.ref_nonneg j
      · simp only [upd_ne _ _ hjr]
        exact hI.ref_nonneg j
    · intro j
      simp only [resolveFlat]
      by_cases hjr : j = rid
      · subst hjr; simp only [upd_self]
        exact hI.ref_pools j
      · simp only [upd_ne _ _ hjr]
        exact hI.ref_pools j
  · subst hσ'
    constructor
    · exact hI.fee_le
    · intro j hj
      simp only [resolveSettle] at hj ⊢
      rw [upd_ne _ _ (show j ≠ rid by omega)]
      exact hI.fresh_default j (by omega)
    · intro j hj u
      simp only [resolveSettle] at hj ⊢
      exact hI.fresh_up j (by omega) u
    · intro j hj u
      simp only [resolveSettle] at hj ⊢
      exact hI.fresh_down j (by omega) u
    · intro j hj S hS
      simp only [resolveSettle] at hj hS ⊢
      by_cases hjr : j = rid
      · subst hjr; simp only [upd_self] at hj; exact absurd hj (by simp)
      · simp only [upd_ne _ _ hjr] at hj ⊢
        exact hI.pools_up j hj S hS
    · intro j hj S hS
      simp only [resolveSettle] at hj hS ⊢
      by_cases hjr : j = rid
      · subst hjr; simp only [upd_self] at hj; exact absurd hj (by simp)
      · simp only [upd_ne _ _ hjr] at hj ⊢
        exact hI.pools_down j hj S hS
    · intro j S
      simp only [resolveSettle]
      by_cases hjr : j = rid
      · subst hjr; simp only [upd_self]
        exact hI.sum_up_le j S
      · simp only [upd_ne _ _ hjr]
        exact hI.sum_up_le j S
    · intro j S
      simp only [resolveSettle]
      by_cases hjr : j = rid
      · subst hjr; simp only [upd_self]
        exact hI.sum_down_le j S
      · simp only [upd_ne _ _ hjr]
        exact hI.sum_down_le j S
    · intro j hj
      simp only [resolveSettle] at hj ⊢
      by_cases hjr : j = rid
      · subst hjr; simp only [upd_self]
        exact outcomeOf_cases (σ.rounds j) sp
      · simp only [upd_ne _ _ hjr] at hj ⊢
        exact hI.outcome_range j hj
    · intro j hj
      simp only [resolveSettle] at hj ⊢
      by_cases hjr : j = rid
      · subst hjr; simp only [upd_self]
        exact outcomeOf_up_pos (σ.rounds j) sp
      · simp only [upd_ne _ _ hjr] at hj ⊢
        exact hI.up_winner j hj
    · intro j hj
      simp only [resolveSettle] at hj ⊢
      by_cases hjr : j = rid
      · subst hjr; simp only [upd_self]
        exact outcomeOf_down_pos (σ.rounds j) sp
      · simp only [upd_ne _ _ hjr] at hj ⊢
        exact hI.down_winner j hj
    · intro j
      simp only [resolveSettle]
      by_cases hjr : j = rid
      · subst hjr; simp only [upd_self]
        exact hI.ref_nonneg j
      · simp only [upd_ne _ _ hjr]
        exact hI.ref_nonneg j
    · intro j
      simp only [resolveSettle]
      by_cases hjr : j = rid
      · subst hjr; simp only [upd_self]
        exact hI.ref_pools j
      · simp only [upd_ne _ _ hjr]
        exact hI.ref_pools j

theorem inv_claim {σ σ' : State} {c rid amt : Nat}
    (hI : Inv σ) (h : claim σ c rid = Except.ok (σ', amt)) : Inv σ' := by
  obtain ⟨hrid, hres, -, -, hσ', -⟩ := claim_ok h
  subst hσ'
  constructor
  · exact hI.fee_le
  · intro j hj
    simp only [clearStakes] at hj ⊢
    exact hI.fresh_default j (by omega)
  · intro j hj u
    simp only [clearStakes] at hj ⊢
    rw [upd_ne _ _ (show j ≠ rid by omega)]
    exact hI.fresh_up j (by omega) u
  · intro j hj u
    simp only [clearStakes] at hj ⊢
    rw [upd_ne _ _ (show j ≠ rid by omega)]
    exact hI.fresh_down j (by omega) u
  · intro j hj S hS
    simp only [clearStakes] at hj hS ⊢
    by_cases hjr : j = rid
    · subst hjr; simp [hres] at hj
    · simp only [upd_ne _ _ hjr] at hS ⊢
      exact hI.pools_up j hj S hS
  · intro j hj S hS
    simp only [clearStakes] at hj hS ⊢
    by_cases hjr : j = rid
    · subst hjr; simp [hres] at hj
    · simp only [upd_ne _ _ hjr] at hS ⊢
      exact hI.pools_down j hj S hS
  · intro j S
    simp only [clearStakes]
    by_cases hjr : j = rid
    · subst hjr; simp only [upd_self]
      exact le_trans sum_upd_zero_le (hI.sum_up_le j S)
    · simp only [upd_ne _ _ hjr]
      exact hI.sum_up_le j S
  · intro j S
    simp only [clearStakes]
    by_cases hjr : j = rid
    · subst hjr; simp only [upd_self]
      exact le_trans sum_upd_zero_le (hI.sum_down_le j S)
    · simp only [upd_ne _ _ hjr]
      exact hI.sum_down_le j S
  · intro j hj
    simp only [clearStakes] at hj ⊢
    exact hI.outcome_range j hj
  · intro j hj
    simp only [clearStakes] at hj ⊢
    exact hI.up_winner j hj
  · intro j hj
    simp only [clearStakes] at hj ⊢
    exact hI.down_winner j hj
  · intro j
    simp only [clearStakes]
    exact hI.ref_nonneg j
  · intro j
    simp only [clearStakes]
    exact hI.ref_pools j

theorem inv_fees {σ σ' : State} {c s bps : Nat}
    (hI : Inv σ) (h : setFees σ c s bps = Except.ok σ') : Inv σ' := by
  obtain ⟨-, -, hb, hσ'⟩ := setFees_ok h
  subst hσ'
  exact ⟨hb, hI.fresh_default, hI.fresh_up, hI.fresh_down, hI.pools_up, hI.pools_down,
    hI.sum_up_le, hI.sum_down_le, hI.outcome_range, hI.up_winner, hI.down_winner,
    hI.ref_nonneg, hI.ref_pools⟩

theorem step_inv {σ σ' : State} (hI : Inv σ) (hs : Step σ σ') : Inv σ' := by
  cases hs with
  | create h => exact inv_create hI h
  | betU h => exact inv_betU hI h
  | betD h => exact inv_betD hI h
  | res h => exact inv_resolve hI h
  | clm h => exact inv_claim hI h
  | fees h => exact inv_fees hI h

theorem reachable_inv {σ : State} (hσ : Reachable σ) : Inv σ := by
  induction hσ with
  | init d f bps hf hb => exact inv_init hb
  | step hσ hs ih => exact step_inv ih hs

theorem reachable_steps {σ σ' : State} (hσ : Reachable σ) (hs : Steps σ σ') :
    Reachable σ' := by
  induction hs with
  | refl => exact hσ
  | tail hab hbc ih => exact Reachable.step ih hbc

/-- A resolved round is frozen: no successful call changes its record. -/
theorem step_frozen {σ σ' : State} (hI : Inv σ) (hs : Step σ σ') {i : Nat}
    (hres : (σ.rounds i).resolved = true) : σ'.rounds i = σ.rounds i := by
  cases hs with
  | @create c m a b r now h =>
    obtain ⟨-, -, -, -, -, -, -, -, hσ'⟩ := createRound_ok h
    subst hσ'
    have hi : i < σ.nextRoundId := resolved_lt hI hres
    exact upd_ne _ _ (show i ≠ σ.nextRoundId by omega)
  | @betU c rid v now pr h =>
    obtain ⟨-, hr, -, -, -, -, ref, -, -, hσ'⟩ := betUp_ok h
    subst hσ'
    refine upd_ne _ _ ?_
    rintro rfl
    rw [hres] at hr
    exact Bool.noConfusion hr
  | @betD c rid v now pr h =>
    obtain ⟨-, hr, -, -, -, -, ref, -, -, hσ'⟩ := betDown_ok h
    subst hσ'
    refine upd_ne _ _ ?_
    rintro rfl
    rw [hres] at hr
    exact Bool.noConfusion hr
  | @res rid now pr h =>
    obtain ⟨-, hr, -, hbr⟩ := resolve_ok h
    have hir : i ≠ rid := by
      rintro rfl
      rw [hres] at hr
      exact Bool.noConfusion hr
    rcases hbr with ⟨-, hσ'⟩ | ⟨sp, -, -, -, hσ'⟩
    · subst hσ'
      exact upd_ne _ _ hir
    · subst hσ'
      exact upd_ne _ _ hir
  | clm h =>
    obtain ⟨-, -, -, -, hσ', -⟩ := claim_ok h
    subst hσ'
    rfl
  | fees h =>
    obtain ⟨-, -, -, hσ'⟩ := setFees_ok h
    subst hσ'
    rfl

/-- Multi-step version of `step_frozen`. -/
theorem steps_frozen {σ σ' : State} (hσ : Reachable σ) (hs : Steps σ σ') {i : Nat}
    (hres : (σ.rounds i).resolved = true) : σ'.rounds i = σ.rounds i := by
  induction hs with
  | refl => rfl
  | tail hab hbc ih =>
    exact (step_frozen (reachable_inv (reachable_steps hσ hab)) hbc
      (ih.symm ▸ hres)).trans ih

/-- A non-zero reference price is never overwritten by any single call. -/
theorem step_refPrice {σ σ' : State} (hI : Inv σ) (hs : Step σ σ') {i : Nat}
    (h : (σ.rounds i).refPrice ≠ 0) :
    (σ'.rounds i).refPrice = (σ.rounds i).refPrice := by
  cases hs with
  | @create c m a b r now hc =>
    obtain ⟨-, -, -, -, -, -, -, -, hσ'⟩ := createRound_ok hc
    subst hσ'
    have hi : i ≠ σ.nextRoundId := by
      rintro rfl
      rw [hI.fresh_default _ le_rfl] at h
      exact h rfl
    exact congrArg Round.refPrice (upd_ne _ _ hi)
  | @betU c rid v now pr hc =>
    obtain ⟨-, -, -, -, -, -, ref, -, hrefne, hσ'⟩ := betUp_ok hc
    subst hσ'
    by_cases hir : i = rid
    · subst hir
      simp only [betUpApply, upd_self]
      exact hrefne h
    · simp only [betUpApply, upd_ne _ _ hir]
  | @betD c rid v now pr hc =>
    obtain ⟨-, -, -, -, -, -, ref, -, hrefne, hσ'⟩ := betDown_ok hc
    subst hσ'
    by_cases hir : i = rid
    · subst hir
      simp only [betDownApply, upd_self]
      exact hrefne h
    · simp only [betDownApply, upd_ne _ _ hir]
  | @res rid now pr hc =>
    obtain ⟨-, -, -, hbr⟩ := resolve_ok hc
    rcases hbr with ⟨-, hσ'⟩ | ⟨sp, -, -, -, hσ'⟩
    · subst hσ'
      by_cases hir : i = rid
      · subst hir
        simp only [resolveFlat, upd_self]
      · simp only [resolveFlat, upd_ne _ _ hir]
    · subst hσ'
      by_cases hir : i = rid
      · subst hir
        simp only [resolveSettle, upd_self]
      · simp only [resolveSettle, upd_ne _ _ hir]
  | clm hc =>
    obtain ⟨-, -, -, -, hσ', -⟩ := claim_ok hc
    subst hσ'
    rfl
  | fees hc =>
    obtain ⟨-, -, -, hσ'⟩ := setFees_ok hc
    subst hσ'
    rfl

/-- `resolve` on an already-resolved (existing) round reverts with
`AlreadyResolved`. -/
theorem resolve_already {σ : State} {i now : Nat} {pr : Option Int}
    (hlt : i < σ.nextRoundId) (hres : (σ.rounds i).resolved = true) :
    resolve σ i now pr = Except.error Err.AlreadyResolved := by
  unfold resolve
  rw [if_neg (by omega), if_pos hres]

/-- A claim with a positive recorded stake on a resolved round succeeds,
zeroing the stakes and paying the `payoutOf` amount. -/
theorem claim_first_ok {σ : State} (hI : Inv σ) {c : Addr} {r : Nat}
    (hres : (σ.rounds r).resolved = true)
    (hstake : 0 < σ.upStakes r c + σ.downStakes r c) :
    claim σ c r = Except.ok (clearStakes σ r c,
      payoutOf (σ.rounds r) σ.feeBps (σ.upStakes r c) (σ.downStakes r c)) := by
  have hlt : r < σ.nextRoundId := resolved_lt hI hres
  have hnw : ¬((σ.rounds r).outcome ≠ 3 ∧
      (if (σ.rounds r).outcome = 1 then (σ.rounds r).upPool
       else (σ.rounds r).downPool) = 0) := by
    rintro ⟨hne3, hz⟩
    rcases hI.outcome_range r hres with h1 | h2 | h3
    · rw [if_pos h1] at hz
      have := hI.up_winner r hres h1
      omega
    · rw [if_neg (by omega)] at hz
      have := hI.down_winner r hres h2
      omega
    · exact hne3 h3
  unfold claim
  rw [if_neg (by omega), if_neg (by rw [hres]; simp), if_neg (by omega), if_neg hnw]

/-- After `clearStakes`, a repeated claim fails with `NothingToClaim`. -/
theorem claim_second_fails {σ : State} {c : Addr} {r : Nat}
    (hlt : r < σ.nextRoundId) (hres : (σ.rounds r).resolved = true) :
    claim (clearStakes σ r c) c r = Except.error Err.NothingToClaim := by
  have hup : (clearStakes σ r c).upStakes r c = 0 := by
    simp only [clearStakes, upd_self]
  have hdn : (clearStakes σ r c).downStakes r c = 0 := by
    simp only [clearStakes, upd_self]
  unfold claim
  rw [if_neg (show ¬((clearStakes σ r c).nextRoundId ≤ r) by
        simp only [clearStakes]; omega),
      if_neg (show ¬(((clearStakes σ r c).rounds r).resolved = false) by
        simp only [clearStakes]; rw [hres]; simp),
      if_pos (by rw [hup, hdn])]

/-! ### The concrete example execution is reachable -/

theorem st1_ok : createRound st0 1 7 100 150 160 100 = Except.ok st1 := rfl

theorem st2_ok : betUp st1 5 0 20 100 (some 1000) = Except.ok st2 := rfl

theorem st3_ok : betUp st2 6 0 80 110 none = Except.ok st3 := rfl

theorem st4_ok : betDown st3 7 0 50 120 none = Except.ok st4 := rfl

theorem st5_ok : resolve st4 0 160 (some 2000) = Except.ok st5 := rfl

theorem st6_ok : setFees st5 1 2 0 = Except.ok st6 := rfl

theorem stV2_ok : betDown st1 7 0 50 110 (some 1000) = Except.ok stV2 := rfl

theorem stV3_ok : resolve stV2 0 160 (some 2000) = Except.ok stV3 := rfl

theorem st0_reachable : Reachable st0 :=
  Reachable.init 1 2 500 (by decide) (by decide)

theorem st1_reachable : Reachable st1 :=
  Reachable.step st0_reachable (Step.create st1_ok)

theorem st2_reachable : Reachable st2 :=
  Reachable.step st1_reachable (Step.betU st2_ok)

theorem st3_reachable : Reachable st3 :=
  Reachable.step st2_reachable (Step.betU st3_ok)

theorem st4_reachable : Reachable st4 :=
  Reachable.step st3_reachable (Step.betD st4_ok)

theorem st5_reachable : Reachable st5 :=
  Reachable.step st4_reachable (Step.res st5_ok)

theorem stV2_reachable : Reachable stV2 :=
  Reachable.step st1_reachable (Step.betD stV2_ok)

theorem stV3_reachable : Reachable stV3 :=
  Reachable.step stV2_reachable (Step.res stV3_ok)

/-! ### The claims -/

/-- C1: the spec states that the fee rate applicable to a round is fixed no
later than resolution, so a `setFees` call after resolution must never
change a `claim` payout for that round.  The code violates this: the
`Round` struct stores no per-round fee rate and `claim` recomputes the fee
with the contract-level `feeBps` current at claim time.  Concretely: in the
reachable state `st5`, round 0 is resolved UP with pools (100, 50) under
`feeBps = 500`, and participant 5 (stake 20 UP) would be paid 28; after the
owner lowers the fee to 0 basis points, the identical claim pays 30 — even
though `setFees` touched neither the round record nor any stake, and the
7-unit fee had already been transferred to the fee sink at resolution. -/
theorem fee_change_after_resolution_changes_payout :
    Reachable st5 ∧ (st5.rounds 0).resolved = true ∧ st5.feeBps = 500 ∧
    claimAmt st5 5 0 = Except.ok 28 ∧
    setFees st5 1 2 0 = Except.ok st6 ∧
    st6.rounds 0 = st5.rounds 0 ∧
    st6.upStakes = st5.upStakes ∧ st6.downStakes = st5.downStakes ∧
    claimAmt st6 5 0 = Except.ok 30 :=
  ⟨st5_reachable, rfl, rfl, rfl, st6_ok, rfl, rfl, rfl, rfl⟩

/-- C2: payout conservation for a non-FLAT resolved round of a reachable
state: every individual `claim` payout equals
`floor(userWinningStake * distributable / winningPool)` with
`distributable = (upPool + downPool) - floor((upPool + downPool) * feeBps / 10000)`,
and the payouts summed over any (finite, duplicate-free) set of
participants never exceed `distributable`. -/
theorem payout_conservation (σ : State) (hσ : Reachable σ) (r : Nat)
    (hres : (σ.rounds r).resolved = true)
    (hout : (σ.rounds r).outcome = 1 ∨ (σ.rounds r).outcome = 2)
    (S : Finset Addr) :
    (∀ u : Addr, payoutOf (σ.rounds r) σ.feeBps (σ.upStakes r u) (σ.downStakes r u) =
        (if (σ.rounds r).outcome = 1 then σ.upStakes r u else σ.downStakes r u) *
          (((σ.rounds r).upPool + (σ.rounds r).downPool) -
            ((σ.rounds r).upPool + (σ.rounds r).downPool) * σ.feeBps / BASIS_POINTS) /
          (if (σ.rounds r).outcome = 1 then (σ.rounds r).upPool
           else (σ.rounds r).downPool)) ∧
    (∑ u ∈ S, payoutOf (σ.rounds r) σ.feeBps (σ.upStakes r u) (σ.downStakes r u)) ≤
      ((σ.rounds r).upPool + (σ.rounds r).downPool) -
        ((σ.rounds r).upPool + (σ.rounds r).downPool) * σ.feeBps / BASIS_POINTS := by
  have hI := reachable_inv hσ
  rcases hout with h1 | h2
  · have hW : 0 < (σ.rounds r).upPool := hI.up_winner r hres h1
    have heach : ∀ u : Addr,
        payoutOf (σ.rounds r) σ.feeBps (σ.upStakes r u) (σ.downStakes r u) =
          σ.upStakes r u *
            (((σ.rounds r).upPool + (σ.rounds r).downPool) -
              ((σ.rounds r).upPool + (σ.rounds r).downPool) * σ.feeBps / BASIS_POINTS) /
            (σ.rounds r).upPool := by
      intro u
      simp [payoutOf, h1]
    have key : ∀ D : Nat,
        (∑ u ∈ S, σ.upStakes r u * D / (σ.rounds r).upPool) ≤ D := by
      intro D
      calc ∑ u ∈ S, σ.upStakes r u * D / (σ.rounds r).upPool
          ≤ (∑ u ∈ S, σ.upStakes r u) * D / (σ.rounds r).upPool :=
            sum_mul_div_le S (fun u => σ.upStakes r u) D _
        _ ≤ (σ.rounds r).upPool * D / (σ.rounds r).upPool :=
            Nat.div_le_div_right (Nat.mul_le_mul_right D (hI.sum_up_le r S))
        _ = D := Nat.mul_div_cancel_left D hW
    constructor
    · intro u
      rw [heach u, if_pos h1, if_pos h1]
    · rw [Finset.sum_congr rfl (fun u _ => heach u)]
      exact key _
  · have hW : 0 < (σ.rounds r).downPool := hI.down_winner r hres h2
    have heach : ∀ u : Addr,
        payoutOf (σ.rounds r) σ.feeBps (σ.upStakes r u) (σ.downStakes r u) =
          σ.downStakes r u *
            (((σ.rounds r).upPool + (σ.rounds r).downPool) -
              ((σ.rounds r).upPool + (σ.rounds r).downPool) * σ.feeBps / BASIS_POINTS) /
            (σ.rounds r).downPool := by
      intro u
      simp [payoutOf, h2, Nat.add_comm]
    have key : ∀ D : Nat,
        (∑ u ∈ S, σ.downStakes r u * D / (σ.rounds r).downPool) ≤ D := by
      intro D
      calc ∑ u ∈ S, σ.downStakes r u * D / (σ.rounds r).downPool
          ≤ (∑ u ∈ S, σ.downStakes r u) * D / (σ.rounds r).downPool :=
            sum_mul_div_le S (fun u => σ.downStakes r u) D _
        _ ≤ (σ.rounds r).downPool * D / (σ.rounds r).downPool :=
            Nat.div_le_div_right (Nat.mul_le_mul_right D (hI.sum_down_le r S))
        _ = D := Nat.mul_div_cancel_left D hW
    constructor
    · intro u
      rw [heach u, if_neg (by omega), if_neg (by omega)]
    · rw [Finset.sum_congr rfl (fun u _ => heach u)]
      exact key _

theorem payout_conservation_witness :
    (st5.rounds 0).resolved = true ∧
    ((st5.rounds 0).outcome = 1 ∨ (st5.rounds 0).outcome = 2) ∧
    (∑ u ∈ ({5, 6, 7} : Finset Addr),
        payoutOf (st5.rounds 0) st5.feeBps (st5.upStakes 0 u) (st5.downStakes 0 u)) ≤
      ((st5.rounds 0).upPool + (st5.rounds 0).downPool) -
        ((st5.rounds 0).upPool + (st5.rounds 0).downPool) * st5.feeBps / BASIS_POINTS :=
  ⟨rfl, Or.inl rfl,
   (payout_conservation st5 st5_reachable 0 rfl (Or.inl rfl) {5, 6, 7}).2⟩

/-- C3 counterexample: the claim asserts the first `claim` of any
participant with `userUp + userDown > 0` on a resolved round pays a
NON-ZERO amount.  Participant 7 of round 0 in the reachable state `st5`
staked only on the losing DOWN side (stakes (0, 50), outcome UP): the first
claim succeeds but pays exactly 0. -/
theorem claim_zero_payout_counterexample :
    Reachable st5 ∧ (st5.rounds 0).resolved = true ∧
    0 < st5.upStakes 0 7 + st5.downStakes 0 7 ∧
    claimAmt st5 7 0 = Except.ok 0 :=
  ⟨st5_reachable, rfl, by decide, rfl⟩

/-- C3 (amended): on a resolved round of a reachable state, a participant
with a positive recorded stake has a first `claim` that succeeds (with the
payout-calculator amount, which is 0 for a participant holding no
winning-side stake) and leaves the stake pair at (0,0); the second call by
the same participant fails with `NothingToClaim` (an error result models a
revert, so no state changes). -/
theorem claim_idempotent (σ : State) (c : Addr) (r : Nat) (hσ : Reachable σ)
    (hres : (σ.rounds r).resolved = true)
    (hstake : 0 < σ.upStakes r c + σ.downStakes r c) :
    ∃ σ₂ amt, claim σ c r = Except.ok (σ₂, amt) ∧
      getUserStakes σ₂ r c = (0, 0) ∧
      claim σ₂ c r = Except.error Err.NothingToClaim := by
  have hI := reachable_inv hσ
  refine ⟨clearStakes σ r c, _, claim_first_ok hI hres hstake, ?_, ?_⟩
  · show ((clearStakes σ r c).upStakes r c, (clearStakes σ r c).downStakes r c) = (0, 0)
    simp only [clearStakes, upd_self]
  · exact claim_second_fails (resolved_lt hI hres) hres

theorem claim_idempotent_witness :
    (st5.rounds 0).resolved = true ∧
    0 < st5.upStakes 0 5 + st5.downStakes 0 5 ∧
    (∃ σ₂ amt, claim st5 5 0 = Except.ok (σ₂, amt) ∧
      getUserStakes σ₂ 0 5 = (0, 0) ∧
      claim σ₂ 5 0 = Except.error Err.NothingToClaim) :=
  ⟨rfl, by decide, claim_idempotent st5 5 0 st5_reachable rfl (by decide)⟩

/-- C4: pool conservation: in every reachable state, for every unresolved
round, `upPool` equals the sum of the recorded UP stakes over any finite
participant set containing every participant with a non-zero stake, and
symmetrically for `downPool`.  (All operations preserve this because
reachability is closed under `createRound`, `betUp`, `betDown`, `resolve`,
`claim` and `setFees`.) -/
theorem pool_conservation (σ : State) (hσ : Reachable σ) (r : Nat)
    (hunres : (σ.rounds r).resolved = false) (S : Finset Addr) :
    ((∀ a : Addr, a ∉ S → σ.upStakes r a = 0) →
        (σ.rounds r).upPool = ∑ a ∈ S, σ.upStakes r a) ∧
    ((∀ a : Addr, a ∉ S → σ.downStakes r a = 0) →
        (σ.rounds r).downPool = ∑ a ∈ S, σ.downStakes r a) :=
  ⟨fun h => (reachable_inv hσ).pools_up r hunres S h,
   fun h => (reachable_inv hσ).pools_down r hunres S h⟩

theorem pool_conservation_witness :
    (st1.rounds 0).resolved = false ∧
    (st1.rounds 0).upPool = ∑ a ∈ (∅ : Finset Addr), st1.upStakes 0 a ∧
    (st1.rounds 0).downPool = ∑ a ∈ (∅ : Finset Addr), st1.downStakes 0 a := by
  have h := pool_conservation st1 st1_reachable 0 rfl ∅
  exact ⟨rfl, h.1 (fun a _ => rfl), h.2 (fun a _ => rfl)⟩

/-- C5: write-once resolution: from any reachable state in which round `i`
is resolved, after any further sequence of successful calls the round is
still resolved with the same outcome and settle price, and calling
`resolve` on it again fails with `AlreadyResolved` (an error result models
a revert, so nothing is modified). -/
theorem write_once_resolution (σ σ₂ : State) (i : Nat) (hσ : Reachable σ)
    (hs : Steps σ σ₂) (hres : (σ.rounds i).resolved = true) :
    (σ₂.rounds i).resolved = true ∧
    (σ₂.rounds i).outcome = (σ.rounds i).outcome ∧
    (σ₂.rounds i).settlePrice = (σ.rounds i).settlePrice ∧
    (∀ (now : Nat) (pr : Option Int),
        resolve σ₂ i now pr = Except.error Err.AlreadyResolved) := by
  have hfr := steps_frozen hσ hs hres
  have hres₂ : (σ₂.rounds i).resolved = true := by rw [hfr]; exact hres
  refine ⟨hres₂, by rw [hfr], by rw [hfr], ?_⟩
  intro now pr
  have hI₂ := reachable_inv (reachable_steps hσ hs)
  exact resolve_already (resolved_lt hI₂ hres₂) hres₂

theorem write_once_resolution_witness :
    (st5.rounds 0).resolved = true ∧
    resolve st5 0 300 (some 99) = Except.error Err.AlreadyResolved :=
  ⟨rfl, (write_once_resolution st5 st5 0 st5_reachable
    Relation.ReflTransGen.refl rfl).2.2.2 300 (some 99)⟩

/-- C6: void-to-FLAT: (a) in every reachable state, a round resolved UP has
a positive UP pool and a round resolved DOWN a positive DOWN pool; (b) if
`resolve` succeeds with an oracle price strictly above the reference while
the UP pool is empty — or strictly below it while the DOWN pool is empty —
the stored outcome is FLAT (3), not the price-implied side. -/
theorem void_to_flat (σ : State) (hσ : Reachable σ) :
    (∀ r, (σ.rounds r).resolved = true →
        ((σ.rounds r).outcome = 1 → 0 < (σ.rounds r).upPool) ∧
        ((σ.rounds r).outcome = 2 → 0 < (σ.rounds r).downPool)) ∧
    (∀ (r now : Nat) (sp : Int) (σ₂ : State),
        resolve σ r now (some sp) = Except.ok σ₂ →
        (((σ.rounds r).refPrice < sp ∧ (σ.rounds r).upPool = 0) ∨
         (sp < (σ.rounds r).refPrice ∧ (σ.rounds r).downPool = 0)) →
        (σ₂.rounds r).outcome = 3) := by
  have hI := reachable_inv hσ
  constructor
  · exact fun r hres => ⟨hI.up_winner r hres, hI.down_winner r hres⟩
  · intro r now sp σ₂ h hvoid
    obtain ⟨-, -, -, hbr⟩ := resolve_ok h
    rcases hbr with ⟨href, hσ₂⟩ | ⟨sp', hne, hpr, hpos, hσ₂⟩
    · subst hσ₂
      simp [resolveFlat, upd_self]
    · injection hpr with hpr
      subst hσ₂
      subst hpr
      simp only [resolveSettle, upd_self]
      unfold outcomeOf
      rcases hvoid with ⟨hlt, hz⟩ | ⟨hlt, hz⟩
      · have hraw : rawOutcomeOf (σ.rounds r) sp = 1 := by
          unfold rawOutcomeOf
          rw [if_pos hlt]
        rw [if_pos (Or.inl ⟨hraw, hz⟩)]
      · have hraw : rawOutcomeOf (σ.rounds r) sp = 2 := by
          unfold rawOutcomeOf
          rw [if_neg (by omega), if_pos hlt]
        rw [if_pos (Or.inr ⟨hraw, hz⟩)]

theorem void_to_flat_witness :
    ((st5.rounds 0).outcome = 1 → 0 < (st5.rounds 0).upPool) ∧
    ((stV2.rounds 0).refPrice < 2000 ∧ (stV2.rounds 0).upPool = 0) ∧
    (stV3.rounds 0).outcome = 3 :=
  ⟨((void_to_flat st5 st5_reachable).1 0 rfl).1,
   by decide,
   (void_to_flat stV2 stV2_reachable).2 0 160 2000 stV3 stV3_ok
     (Or.inl (by decide))⟩

/-- C7: an existing, unresolved round whose reference price was never set
(`refPrice = 0`) resolves at/after its resolve time to FLAT with settle
price 0 and `resolved = true`, charging no fee, and the result is the same
for every oracle behaviour (including an unavailable oracle), i.e. the
oracle is never consulted. -/
theorem empty_round_resolves_flat (σ : State) (r now : Nat)
    (h1 : r < σ.nextRoundId) (h2 : (σ.rounds r).resolved = false)
    (h3 : (σ.rounds r).resolveTs ≤ now) (h4 : (σ.rounds r).refPrice = 0) :
    (∀ pr : Option Int, resolve σ r now pr = Except.ok (resolveFlat σ r)) ∧
    ((resolveFlat σ r).rounds r).outcome = 3 ∧
    ((resolveFlat σ r).rounds r).settlePrice = 0 ∧
    ((resolveFlat σ r).rounds r).resolved = true ∧
    ((resolveFlat σ r).rounds r).feePaid = (σ.rounds r).feePaid ∧
    (resolveFlat σ r).feeLog = σ.feeLog := by
  refine ⟨?_, ?_, ?_, ?_, ?_, rfl⟩
  · intro pr
    unfold resolve
    rw [if_neg (by omega), if_neg (by rw [h2]; simp), if_neg (by omega), if_pos h4]
  · simp [resolveFlat, upd_self]
  · simp [resolveFlat, upd_self]
  · simp [resolveFlat, upd_self]
  · simp [resolveFlat, upd_self]

theorem empty_round_resolves_flat_witness :
    0 < st1.nextRoundId ∧ (st1.rounds 0).resolved = false ∧
    (st1.rounds 0).resolveTs ≤ 200 ∧ (st1.rounds 0).refPrice = 0 ∧
    resolve st1 0 200 none = Except.ok (resolveFlat st1 0) ∧
    ((resolveFlat st1 0).rounds 0).outcome = 3 := by
  have h := empty_round_resolves_flat st1 0 200 (by decide) rfl (by decide) rfl
  exact ⟨by decide, rfl, by decide, rfl, h.1 none, h.2.1⟩

/-- C8: the worked numeric example: in the reachable state `st5`, round 0
has `feeBps = 500`, `upPool = 100`, `downPool = 50` and outcome UP; the fee
is `floor(150 * 500 / 10000) = 7`, the distributable amount is 143, and
participant 5 with `userUp = 20` (and `userDown = 0`) is paid exactly
`floor(20 * 143 / 100) = 28` by `claim`. -/
theorem worked_fee_example :
    Reachable st5 ∧
    st5.feeBps = 500 ∧ (st5.rounds 0).upPool = 100 ∧ (st5.rounds 0).downPool = 50 ∧
    (st5.rounds 0).outcome = 1 ∧ st5.upStakes 0 5 = 20 ∧ st5.downStakes 0 5 = 0 ∧
    (100 + 50) * 500 / BASIS_POINTS = 7 ∧ 100 + 50 - 7 = 143 ∧ 20 * 143 / 100 = 28 ∧
    claimAmt st5 5 0 = Except.ok 28 :=
  ⟨st5_reachable, by decide, by decide, by decide, by decide, by decide, by decide,
   by decide, by decide, by decide, rfl⟩

/-- C9: reference-price discipline: in every reachable state a round's
`refPrice` is zero or strictly positive; it is zero exactly when both pools
are zero — i.e. exactly when no bet ever succeeded on the round, since
every successful bet adds a positive amount to a pool and pools never
decrease; and once non-zero it is never changed by any further successful
call. -/
theorem refPrice_discipline (σ : State) (hσ : Reachable σ) :
    (∀ r, (σ.rounds r).refPrice = 0 ∨ 0 < (σ.rounds r).refPrice) ∧
    (∀ r, ((σ.rounds r).refPrice = 0 ↔
        (σ.rounds r).upPool = 0 ∧ (σ.rounds r).downPool = 0)) ∧
    (∀ σ₂, Step σ σ₂ → ∀ r, (σ.rounds r).refPrice ≠ 0 →
        (σ₂.rounds r).refPrice = (σ.rounds r).refPrice) := by
  have hI := reachable_inv hσ
  refine ⟨?_, hI.ref_pools, ?_⟩
  · intro r
    have := hI.ref_nonneg r
    omega
  · intro σ₂ hs r h
    exact step_refPrice hI hs h

theorem refPrice_discipline_witness :
    ((st5.rounds 0).refPrice = 0 ∨ 0 < (st5.rounds 0).refPrice) ∧
    ((st1.rounds 0).refPrice = 0 ↔
      (st1.rounds 0).upPool = 0 ∧ (st1.rounds 0).downPool = 0) :=
  ⟨(refPrice_discipline st5 st5_reachable).1 0,
   (refPrice_discipline st1 st1_reachable).2.1 0⟩

/-- C10: `getUserStakes` is a total function performing no round-existence
check: it always returns the stored stake pair, and in every reachable
state it returns (0, 0) for any round id that was never allocated
(`roundId ≥ nextRoundId`) — where `getRound`, by contrast, fails with
`RoundDoesNotExist`. -/
theorem getUserStakes_total (σ : State) (hσ : Reachable σ) :
    (∀ (r : Nat) (u : Addr),
        getUserStakes σ r u = (σ.upStakes r u, σ.downStakes r u)) ∧
    (∀ (r : Nat) (u : Addr), σ.nextRoundId ≤ r →
        getUserStakes σ r u = (0, 0) ∧
        getRound σ r = Except.error Err.RoundDoesNotExist) := by
  have hI := reachable_inv hσ
  refine ⟨fun r u => rfl, fun r u hge => ⟨?_, ?_⟩⟩
  · show (σ.upStakes r u, σ.downStakes r u) = (0, 0)
    rw [hI.fresh_up r hge u, hI.fresh_down r hge u]
  · unfold getRound
    rw [if_pos hge]

theorem getUserStakes_total_witness :
    getUserStakes st5 3 9 = (0, 0) ∧
    getRound st5 3 = Except.error Err.RoundDoesNotExist :=
  (getUserStakes_total st5 st5_reachable).2 3 9 (by decide)

end EscrowGame
